import Mathlib

/-!
Shallow embedding of the goseq package (fasta/fastq streaming readers) and of
the fq2fa command's writer/sharder, translated from the Go source.

The byte stream of an input file is modelled as a `List Char`; the buffered
reader (`bufio.Reader`) primitives `ReadBytes('\n')`, `ReadSlice('\n')` and
`Discard(n)` are modelled as pure functions that split the stream.
-/

/-- Bytes of a stream, one `Char` per byte. -/
abbrev Bytes := List Char

/-- The error values the Go code distinguishes: `io.EOF`, the package-level
`errNotStarted` (`goseq: Next() not yet called`), `bufio.ErrBufferFull`, and
the `goseq: not a fastq file` error of `OpenFastq`. `none` models a nil error. -/
inductive GErr where
  | eof
  | notStarted
  | bufferFull
  | notFastq
deriving DecidableEq

/-- Result of a buffered read: the returned slice, the remaining stream, and
the returned error (`none` = nil). -/
structure RSRes where
  line : Bytes
  rest : Bytes
  err : Option GErr
deriving DecidableEq

/-- `bufio.Reader.ReadBytes('\n')`: read up to and including the first
newline; if the stream ends first, return what was read along with `io.EOF`. -/
def readBytesNL : Bytes → RSRes
  | [] => ⟨[], [], some .eof⟩
  | c :: cs =>
    if c = '\n' then ⟨[c], cs, none⟩
    else
      let r := readBytesNL cs
      ⟨c :: r.line, r.rest, r.err⟩

/-- `bufio.Reader.ReadSlice('\n')` with a read-ahead budget of `b` bytes:
if the buffer fills before a newline is found the consumed bytes are returned
with `bufio.ErrBufferFull`; if the stream ends first they are returned with
`io.EOF`. -/
def readSliceAux : Nat → Bytes → RSRes
  | 0, s => ⟨[], s, some .bufferFull⟩
  | _ + 1, [] => ⟨[], [], some .eof⟩
  | b + 1, c :: cs =>
    if c = '\n' then ⟨[c], cs, none⟩
    else
      let r := readSliceAux b cs
      ⟨c :: r.line, r.rest, r.err⟩

/-- `ReadSlice('\n')` on a `bufio.Reader` whose buffer holds `bufSize` bytes
(`bufio` enforces a minimum buffer size, so the budget is at least 1). -/
def readSlice (bufSize : Nat) (s : Bytes) : RSRes :=
  readSliceAux (max bufSize 1) s

/-- `bufio.Reader.Discard(n)` as iterated by the loop in `fastFastqReader.Next`
(`for lastSeqLen > 0 && lastErr == nil { skipped, err = Discard(lastSeqLen);
lastSeqLen -= skipped }`): either all `n` bytes are dropped, or the stream is
exhausted and `io.EOF` is reported with the undiscarded count left over.
Returns `(leftover, remaining stream, error)`. -/
def discardQual (n : Nat) (s : Bytes) : Nat × Bytes × Option GErr :=
  if n = 0 then (0, s, none)
  else if s.length < n then (n - s.length, [], some .eof)
  else (0, s.drop n, none)

/-- The Go slice expression `b[1 : len(b)-1]` used by `Identifier()`:
out of range (a run-time panic) unless `2 ≤ len b`, modelled as `none`. -/
def goIdentSlice (b : Bytes) : Option Bytes :=
  if 2 ≤ b.length then some ((b.drop 1).dropLast) else none

/-- The value of `b[1 : len(b)-1]` when it is in range. -/
def identOf (b : Bytes) : Bytes := (b.drop 1).dropLast

theorem readBytesNL_split (s : Bytes) :
    (readBytesNL s).line ++ (readBytesNL s).rest = s := by
  induction s with
  | nil => rfl
  | cons c cs ih =>
    simp only [readBytesNL]
    split
    · simp_all
    · simpa using ih

theorem readBytesNL_length (s : Bytes) :
    (readBytesNL s).line.length + (readBytesNL s).rest.length = s.length := by
  have h := congrArg List.length (readBytesNL_split s)
  simpa using h

theorem readSliceAux_length (b : Nat) (s : Bytes) :
    (readSliceAux b s).line.length + (readSliceAux b s).rest.length = s.length := by
  induction b generalizing s with
  | zero => simp [readSliceAux]
  | succ b ih =>
    cases s with
    | nil => simp [readSliceAux]
    | cons c cs =>
      simp only [readSliceAux]
      split
      · simp [Nat.add_comm]
      · simpa [Nat.succ_add] using ih cs

theorem readSlice_length (b : Nat) (s : Bytes) :
    (readSlice b s).line.length + (readSlice b s).rest.length = s.length :=
  readSliceAux_length _ s

theorem readSlice_rest_lt {b : Nat} {s : Bytes}
    (h : (readSlice b s).line.length ≠ 0) :
    (readSlice b s).rest.length < s.length := by
  have := readSlice_length b s
  omega

theorem readBytesNL_rest_lt {s : Bytes}
    (h : (readBytesNL s).line.length ≠ 0) :
    (readBytesNL s).rest.length < s.length := by
  have := readBytesNL_length s
  omega

theorem readSliceAux_err_ne_eof {b : Nat} {s : Bytes} (hb : 0 < b)
    (h : (readSliceAux b s).err ≠ some .eof) :
    (readSliceAux b s).line.length ≠ 0 := by
  cases b with
  | zero => omega
  | succ b =>
    cases s with
    | nil => simp [readSliceAux] at h
    | cons c cs =>
      simp only [readSliceAux] at h ⊢
      split <;> simp

theorem readSlice_err_ne_eof {b : Nat} {s : Bytes}
    (h : (readSlice b s).err ≠ some .eof) : (readSlice b s).line.length ≠ 0 :=
  readSliceAux_err_ne_eof (Nat.lt_of_lt_of_le Nat.zero_lt_one (Nat.le_max_right b 1)) h

/-! ### The FASTA reader (`fastFastaReader`) -/

/-- State of a `fastFastaReader`: the buffered stream together with the
`identifierBytes`, `lastBytes` and `lastErr` fields. -/
structure FastaState where
  bufSize : Nat
  stream : Bytes
  identifierBytes : Bytes
  lastBytes : Bytes
  lastErr : Option GErr
deriving DecidableEq

/-- `fastFastaReader.Next`. -/
def fastaNext (f : FastaState) : Bool × FastaState :=
  let f1 :=
    if f.lastErr = some .notStarted then
      let r := readBytesNL f.stream
      { f with identifierBytes := r.line, stream := r.rest, lastErr := r.err }
    else f
  if f1.lastErr = some .eof then (false, f1)
  else if f1.lastErr ≠ none then (false, f1)
  else if f1.identifierBytes.length = 0 then (false, f1)
  else (f1.identifierBytes.headI = '>', f1)

/-- The loop of `fastFastaReader.Sequence`: read lines with `ReadSlice`,
treat `ErrBufferFull` as nil, stop on an error, an empty read, or a line
starting with `'>'` (which is retained as the next identifier line); other
reads are appended to the accumulator with their final byte sliced off
(`lastBytes[:len(lastBytes)-1]`). -/
def fastaSeqLoop (f : FastaState) (acc : Bytes) : Bytes × FastaState :=
  let r := readSlice f.bufSize f.stream
  let e := if r.err = some .bufferFull then none else r.err
  let f1 : FastaState :=
    { f with stream := r.rest, lastBytes := r.line, lastErr := e }
  if e ≠ none then (acc, f1)
  else if h : r.line.length = 0 then (acc, f1)
  else if r.line.headI = '>' then (acc, { f1 with identifierBytes := r.line })
  else fastaSeqLoop f1 (acc ++ r.line.dropLast)
termination_by f.stream.length
decreasing_by
  exact readSlice_rest_lt h

/-- `fastFastaReader.Sequence`. -/
def fastaSequence (f : FastaState) : Bytes × FastaState :=
  fastaSeqLoop f []

/-- The loop of `fastFastaReader.SequenceBytes`: like `Sequence` but the bytes
of `lastBytes[:len(lastBytes)-1]` are handed to the callback (modelled by
accumulating them), only for reads of more than one byte, and the error checks
come after the emission. Returns the emitted bytes, the final state, and the
function's error result. -/
def fastaSeqBytesLoop (f : FastaState) (acc : Bytes) :
    Bytes × FastaState × Option GErr :=
  let r := readSlice f.bufSize f.stream
  let e := if r.err = some .bufferFull then none else r.err
  let f1 : FastaState :=
    { f with stream := r.rest, lastBytes := r.line, lastErr := e }
  if 1 < r.line.length ∧ r.line.headI = '>' then
    (acc, { f1 with identifierBytes := r.line }, none)
  else
    let acc1 := if 1 < r.line.length then acc ++ r.line.dropLast else acc
    if e = some .eof then (acc1, f1, none)
    else if h : e = none then fastaSeqBytesLoop f1 acc1
    else (acc1, f1, e)
termination_by f.stream.length
decreasing_by
  refine readSlice_rest_lt (readSlice_err_ne_eof ?_)
  have hr : readSlice f.bufSize f.stream = r := rfl
  rw [hr]
  revert h
  unfold e
  split <;> intro h <;> simp_all

/-- `fastFastaReader.SequenceBytes` (the emitted callback bytes are returned
alongside the final state and the error result). -/
def fastaSequenceBytes (f : FastaState) : Bytes × FastaState × Option GErr :=
  fastaSeqBytesLoop f []

/-! ### The FASTQ reader (`fastFastqReader`) -/

/-- State of a `fastFastqReader`. -/
structure FastqState where
  bufSize : Nat
  stream : Bytes
  identifierBytes : Bytes
  lastSeqLen : Nat
  lastBytes : Bytes
  lastErr : Option GErr
deriving DecidableEq

/-- The re-synchronisation loop of `fastFastqReader.Next`: after the quality
bytes are discarded, read lines with `ReadBytes('\n')` until one starts with
`'@'`, the read is empty, or an error occurs. -/
def skipHeaderLoop (s : Bytes) : RSRes :=
  let r := readBytesNL s
  if h : r.line.length ≠ 0 ∧ r.line.headI ≠ '@' ∧ r.err = none then
    skipHeaderLoop r.rest
  else r
termination_by s.length
decreasing_by
  exact readBytesNL_rest_lt h.1

/-- `fastFastqReader.Next`. -/
def fastqNext (f : FastqState) : Bool × FastqState :=
  let f1 :=
    if f.lastErr = some .notStarted then
      let r := readBytesNL f.stream
      { f with identifierBytes := r.line, stream := r.rest, lastErr := r.err }
    else f
  if f1.lastErr = some .eof then (false, f1)
  else if f1.lastErr ≠ none then (false, f1)
  else if 0 < f1.lastSeqLen then
    let d := discardQual f1.lastSeqLen f1.stream
    let f2 := { f1 with lastSeqLen := d.1, stream := d.2.1, lastErr := d.2.2 }
    if f2.lastErr ≠ none then (false, f2)
    else
      let r := skipHeaderLoop f2.stream
      let f3 := { f2 with identifierBytes := r.line, stream := r.rest, lastErr := r.err }
      if f3.identifierBytes.length = 0 then (false, f3)
      else (f3.identifierBytes.headI = '@', f3)
  else
    if f1.identifierBytes.length = 0 then (false, f1)
    else (f1.identifierBytes.headI = '@', f1)

/-- The loop of `fastFastqReader.Sequence`: like the FASTA one, but the
sequence block ends at a line starting with `'+'`, at which point the length
of the accumulated sequence is remembered in `lastSeqLen`. -/
def fastqSeqLoop (f : FastqState) (acc : Bytes) : Bytes × FastqState :=
  let r := readSlice f.bufSize f.stream
  let e := if r.err = some .bufferFull then none else r.err
  let f1 : FastqState :=
    { f with stream := r.rest, lastBytes := r.line, lastErr := e }
  if e ≠ none then (acc, f1)
  else if h : r.line.length = 0 then (acc, f1)
  else if r.line.headI = '+' then (acc, { f1 with lastSeqLen := acc.length })
  else fastqSeqLoop f1 (acc ++ r.line.dropLast)
termination_by f.stream.length
decreasing_by
  exact readSlice_rest_lt h

/-- `fastFastqReader.Sequence`. -/
def fastqSequence (f : FastqState) : Bytes × FastqState :=
  fastqSeqLoop f []

/-! ### Opening a file (`Open`, `OpenFastq`) -/

/-- The `fastFastaReader` built by `Open` before it peeks at the stream:
`lastErr` is `errNotStarted` and nothing has been read. -/
def freshFasta (bufSize : Nat) (input : Bytes) : FastaState :=
  ⟨bufSize, input, [], [], some .notStarted⟩

/-- The `fastFastqReader` built by `fastqOpenFrom`/`OpenFastq` before any
read: it shares the stream position and the `errNotStarted` last error. -/
def freshFastq (bufSize : Nat) (input : Bytes) : FastqState :=
  ⟨bufSize, input, [], 0, [], some .notStarted⟩

/-- A `goseq.Reader`: either of the two concrete reader types. -/
inductive Rdr where
  | fasta (f : FastaState)
  | fastq (f : FastqState)
deriving DecidableEq

/-- `goseq.Open` after the underlying file is open and any decompression
transform applied: peek one byte; if the peek fails return the fasta reader
together with the peek error; if the byte is `'@'` hand the state to
`fastqOpenFrom`; otherwise return the fasta reader with a nil error. -/
def goseqOpen (bufSize : Nat) (input : Bytes) : Option Rdr × Option GErr :=
  match input with
  | [] => (some (.fasta (freshFasta bufSize [])), some .eof)
  | c :: _ =>
    if c = '@' then (some (.fastq (freshFastq bufSize input)), none)
    else (some (.fasta (freshFasta bufSize input)), none)

/-- `goseq.OpenFastq` after the file is open: peek one byte; a failed peek
returns the reader with the peek error; a byte other than `'@'` fails with
the `goseq: not a fastq file` error and no reader. -/
def goseqOpenFastq (bufSize : Nat) (input : Bytes) : Option FastqState × Option GErr :=
  match input with
  | [] => (some (freshFastq bufSize []), some .eof)
  | c :: _ =>
    if c ≠ '@' then (none, some .notFastq)
    else (some (freshFastq bufSize input), none)

/-! ### Record-by-record iteration (the `for rdr.Next()` loop of fq2fa's
`convertFile`) -/

/-- A record as carried by fq2fa: the `Seq` struct (named `SeqRecord` here
because Lean's library already owns the name `Seq`). -/
structure SeqRecord where
  identifier : Bytes
  sequence : Bytes
deriving DecidableEq

/-- The iteration loop over a FASTA reader: while `Next()` is true, collect
`(Identifier(), Sequence())`.  The fuel bounds the number of iterations; each
successful iteration either consumes input or sets an error, so
`input.length + 1` iterations always suffice. -/
def fastaRunAux : Nat → FastaState → List SeqRecord
  | 0, _ => []
  | fuel + 1, f =>
    let (ok, f1) := fastaNext f
    if ok then
      let (s, f2) := fastaSequence f1
      ⟨identOf f1.identifierBytes, s⟩ :: fastaRunAux fuel f2
    else []

/-- Decode a whole FASTA input to its list of records. -/
def fastaDecode (bufSize : Nat) (input : Bytes) : List SeqRecord :=
  fastaRunAux (input.length + 1) (freshFasta bufSize input)

/-- The iteration loop over a FASTQ reader. -/
def fastqRunAux : Nat → FastqState → List SeqRecord
  | 0, _ => []
  | fuel + 1, f =>
    let (ok, f1) := fastqNext f
    if ok then
      let (s, f2) := fastqSequence f1
      ⟨identOf f1.identifierBytes, s⟩ :: fastqRunAux fuel f2
    else []

/-- Decode a whole FASTQ input to its list of records. -/
def fastqDecode (bufSize : Nat) (input : Bytes) : List SeqRecord :=
  fastqRunAux (input.length + 1) (freshFastq bufSize input)

/-! ### The writer task (`seqWriter`) and the sharder (`fanWriters`) -/

/-- The wrapping loop of `seqWriter`: while more than 80 characters remain,
print an 80-character line; finally print the remainder (possibly empty) with
its own line terminator. -/
def wrapSeq (s : Bytes) : Bytes :=
  if h : 80 < s.length then s.take 80 ++ '\n' :: wrapSeq (s.drop 80)
  else s ++ ['\n']
termination_by s.length
decreasing_by
  simp only [List.length_drop]
  omega

/-- The chunks the wrapping loop prints, one list entry per output line. -/
def wrapChunks (s : Bytes) : List Bytes :=
  if h : 80 < s.length then s.take 80 :: wrapChunks (s.drop 80)
  else [s]
termination_by s.length
decreasing_by
  simp only [List.length_drop]
  omega

/-- What `seqWriter` emits for one record: the `>` marker line followed by
the 80-column-wrapped sequence. -/
def writeRecord (r : SeqRecord) : Bytes :=
  '>' :: r.identifier ++ '\n' :: wrapSeq r.sequence

/-- What a writer task emits for a list of records arriving on its channel. -/
def seqWriterOut (recs : List SeqRecord) : Bytes :=
  (recs.map writeRecord).flatten

/-- Arrival-indexed records, starting at index `i` (used to state which
records the sharder assigns to a destination). -/
def enumFrom (i : Nat) : List SeqRecord → List (Nat × SeqRecord)
  | [] => []
  | r :: rest => (i, r) :: enumFrom (i + 1) rest

/-- The distribution loop of `fanWriters`: `subs[idx%n] <- s; idx++` for each
record of the shared channel, starting from counter value `idx`.  Returns the
per-destination buffers and the final counter (the reported total). -/
def fanLoop (n : Nat) (recs : List SeqRecord) (idx : Nat)
    (subs : List (List SeqRecord)) : List (List SeqRecord) × Nat :=
  match recs with
  | [] => (subs, idx)
  | r :: rest =>
    fanLoop n rest (idx + 1) (subs.set (idx % n) (subs.getD (idx % n) [] ++ [r]))

/-- `fanWriters` with `n` destinations: start from counter 0 and `n` empty
buffers. -/
def fanWriters (n : Nat) (recs : List SeqRecord) : List (List SeqRecord) × Nat :=
  fanLoop n recs 0 (List.replicate n [])

/-! ### `Progress` -/

/-- Two's-complement wraparound to a signed 64-bit value, as Go `int64`
arithmetic produces it on overflow. -/
def wrap64 (x : Int) : Int := (x + 2 ^ 63) % 2 ^ 64 - 2 ^ 63

/-- `Progress()` of either reader: `-1` if `Stat` fails or reports a
non-positive size, `-1` if `Seek(0, SEEK_CUR)` fails, otherwise
`float64(pos*100) / float64(size)`.  `pos*100.0` in the source is `int64`
multiplication (the untyped constant converts to `int64`), so the product
wraps on overflow (`wrap64`); the `float64` division itself is modelled
exactly, over `ℚ`.  `none` models a failed `Stat`/`Seek` call. -/
def progress (statSize : Option Int) (seekPos : Option Int) : ℚ :=
  match statSize with
  | none => -1
  | some size =>
    if size ≤ 0 then -1
    else
      match seekPos with
      | none => -1
      | some pos => ((wrap64 (pos * 100) : Int) : ℚ) / (size : ℚ)

/-- The raw bytes of a block of text lines: each line's content followed by
its line terminator (used to state how sequence and quality blocks sit in the
input stream). -/
def linesRaw (ls : List Bytes) : Bytes := (ls.map (· ++ ['\n'])).flatten

/-! ### Behaviour of the read primitives on well-formed lines -/

theorem readBytesNL_err (s : Bytes) :
    (readBytesNL s).err = none ∨ (readBytesNL s).err = some .eof := by
  induction s with
  | nil => simp [readBytesNL]
  | cons c cs ih =>
    simp only [readBytesNL]
    split
    · simp
    · simpa using ih

theorem readBytesNL_cons_headI (c : Char) (cs : Bytes) :
    (readBytesNL (c :: cs)).line.headI = c := by
  simp only [readBytesNL]
  split <;> simp_all

theorem readBytesNL_cons_ne_nil (c : Char) (cs : Bytes) :
    (readBytesNL (c :: cs)).line ≠ [] := by
  simp only [readBytesNL]
  split <;> simp

theorem readBytesNL_line (l t : Bytes) (hl : '\n' ∉ l) :
    readBytesNL (l ++ '\n' :: t) = ⟨l ++ ['\n'], t, none⟩ := by
  induction l with
  | nil => simp [readBytesNL]
  | cons c cs ih =>
    simp only [List.mem_cons, not_or] at hl
    simp only [List.cons_append, readBytesNL, if_neg (Ne.symm (Ne.intro hl.1) : ¬c = '\n'),
      List.append_eq, ih hl.2]

theorem readSliceAux_full (s t : Bytes) (hl : '\n' ∉ s) :
    readSliceAux s.length (s ++ t) = ⟨s, t, some .bufferFull⟩ := by
  induction s with
  | nil => simp [readSliceAux]
  | cons c cs ih =>
    simp only [List.mem_cons, not_or] at hl
    simp only [List.length_cons, List.cons_append, readSliceAux,
      if_neg (Ne.symm (Ne.intro hl.1) : ¬c = '\n'), List.append_eq, ih hl.2]

theorem readSliceAux_line (b : Nat) (l t : Bytes) (hl : '\n' ∉ l)
    (hb : l.length < b) : readSliceAux b (l ++ '\n' :: t) = ⟨l ++ ['\n'], t, none⟩ := by
  induction l generalizing b with
  | nil =>
    cases b with
    | zero => omega
    | succ b => simp [readSliceAux]
  | cons c cs ih =>
    cases b with
    | zero => omega
    | succ b =>
      simp only [List.mem_cons, not_or] at hl
      simp only [List.cons_append, readSliceAux,
        if_neg (Ne.symm (Ne.intro hl.1) : ¬c = '\n'), List.append_eq,
        ih b hl.2 (by simpa using Nat.lt_of_succ_lt_succ hb)]

theorem readSlice_line (b : Nat) (l t : Bytes) (hl : '\n' ∉ l)
    (hb : l.length < b) : readSlice b (l ++ '\n' :: t) = ⟨l ++ ['\n'], t, none⟩ :=
  readSliceAux_line _ l t hl (Nat.lt_of_lt_of_le hb (Nat.le_max_left b 1))

theorem readSlice_nil (b : Nat) : readSlice b [] = ⟨[], [], some .eof⟩ := by
  unfold readSlice
  cases h : max b 1 with
  | zero => omega
  | succ n => simp [readSliceAux]

/-! ### C10: opening an empty file -/

/-- C10: on a zero-byte input, `Open` returns a non-nil `Reader` (the FASTA
reader) together with the non-nil end-of-stream error `io.EOF` — not an
unsupported-format error and not a nil reader — and `Next()` on that reader
returns `false`. -/
theorem open_empty_file_returns_reader_and_eof :
    (goseqOpen 4096 []).1 = some (.fasta (freshFasta 4096 [])) ∧
    (goseqOpen 4096 []).1 ≠ none ∧
    (goseqOpen 4096 []).2 = some .eof ∧
    (goseqOpen 4096 []).2 ≠ some .notFastq ∧
    (fastaNext (freshFasta 4096 [])).1 = false := by
  refine ⟨rfl, by simp [goseqOpen], rfl, by simp [goseqOpen], ?_⟩
  simp [fastaNext, freshFasta, readBytesNL]

/-! ### C1: `Open` on a first byte that is neither marker -/

/-- C1 (counterexample): on the input `"Xabc\n"`, whose first byte is neither
`'>'` nor `'@'`, `Open` does **not** fail: it returns a nil error and a
non-nil reader, contradicting the claim that it fails with a
"not a recognized sequence format" error. -/
theorem open_unrecognized_counterexample :
    ('X' ≠ '>' ∧ 'X' ≠ '@') ∧
    (goseqOpen 4096 ('X' :: "abc\n".toList)).2 = none ∧
    (goseqOpen 4096 ('X' :: "abc\n".toList)).1 ≠ none := by
  refine ⟨by decide, rfl, by simp [goseqOpen]⟩

/-- C1 (amended): `Open` never rejects by content. If the first byte is not
`'@'` (in particular when it is neither marker), `Open` returns the FASTA
reader with a nil error; on such a no-marker file the first `Next()` simply
returns `false`. Only `OpenFastq` rejects a non-`'@'` first byte, with the
`goseq: not a fastq file` error and a nil reader. -/
theorem open_unrecognized_amended (bufSize : Nat) (c : Char) (rest : Bytes)
    (hq : c ≠ '@') (hg : c ≠ '>') :
    (goseqOpen bufSize (c :: rest)).1 =
      some (.fasta (freshFasta bufSize (c :: rest))) ∧
    (goseqOpen bufSize (c :: rest)).2 = none ∧
    (fastaNext (freshFasta bufSize (c :: rest))).1 = false ∧
    (goseqOpenFastq bufSize (c :: rest)).1 = none ∧
    (goseqOpenFastq bufSize (c :: rest)).2 = some .notFastq := by
  refine ⟨by simp [goseqOpen, hq], by simp [goseqOpen, hq], ?_,
    by simp [goseqOpenFastq, hq], by simp [goseqOpenFastq, hq]⟩
  have hh := readBytesNL_cons_headI c rest
  have hn := readBytesNL_cons_ne_nil c rest
  rcases readBytesNL_err (c :: rest) with he | he <;>
    simp [fastaNext, freshFasta, he, hh, hn, List.length_eq_zero, hg]

/-- C1 (witness). -/
theorem open_unrecognized_amended_witness :
    (goseqOpen 4096 ('X' :: "abc\n".toList)).1 =
      some (.fasta (freshFasta 4096 ('X' :: "abc\n".toList))) ∧
    (goseqOpen 4096 ('X' :: "abc\n".toList)).2 = none ∧
    (fastaNext (freshFasta 4096 ('X' :: "abc\n".toList))).1 = false ∧
    (goseqOpenFastq 4096 ('X' :: "abc\n".toList)).1 = none ∧
    (goseqOpenFastq 4096 ('X' :: "abc\n".toList)).2 = some .notFastq :=
  open_unrecognized_amended 4096 'X' "abc\n".toList (by decide) (by decide)

/-! ### C2: a sequence line longer than the read-ahead buffer -/

/-- C2: the code drops one byte whenever the buffer fills before a line
terminator.  With buffer size `k + 2`, a record whose single sequence line is
the `k + 3` characters `'A'^(k+2) ++ "B"` decodes — both through `Sequence()`
and through `SequenceBytes` — to `'A'^(k+1) ++ "B"`: the byte at the
buffer-refill boundary (the last `'A'`) is lost, because the refill read is
not treated as an error but its last byte is still sliced off as if it were a
line terminator.  This contradicts the claim (and §4.2 of the spec) that no
byte is lost at a buffer-refill boundary; the conversion of `ErrBufferFull`
to a non-error shows the claimed behaviour is the intent, so this is a bug in
the code.  (The state below is the reader state right after `Next()` consumed
the marker line `">x\n"`; the real reader has `bufSize = 4096`, i.e.
`k = 4094`.) -/
theorem sequence_loses_byte_at_buffer_boundary (k : Nat) :
    (fastaSequence ⟨k + 2, List.replicate (k + 2) 'A' ++ ['B', '\n'],
        ['>', 'x', '\n'], [], none⟩).1 = List.replicate (k + 1) 'A' ++ ['B'] ∧
    (fastaSequenceBytes ⟨k + 2, List.replicate (k + 2) 'A' ++ ['B', '\n'],
        ['>', 'x', '\n'], [], none⟩).1 = List.replicate (k + 1) 'A' ++ ['B'] ∧
    List.replicate (k + 1) 'A' ++ ['B'] ≠ List.replicate (k + 2) 'A' ++ ['B'] := by
  have hmax : max (k + 2) 1 = k + 2 := Nat.max_eq_left (by omega)
  have hnl : ('\n' : Char) ∉ List.replicate (k + 2) 'A' := by
    simp [List.mem_replicate]
  have h1 : readSlice (k + 2) (List.replicate (k + 2) 'A' ++ ['B', '\n'])
      = ⟨List.replicate (k + 2) 'A', ['B', '\n'], some .bufferFull⟩ := by
    have h := readSliceAux_full (List.replicate (k + 2) 'A') ['B', '\n'] hnl
    rw [List.length_replicate] at h
    rw [readSlice, hmax, h]
  have h2 : readSlice (k + 2) ['B', '\n'] = ⟨['B', '\n'], [], none⟩ := by
    have h := readSlice_line (k + 2) ['B'] [] (by decide) (by simp)
    simpa using h
  have h3 : readSlice (k + 2) ([] : Bytes) = ⟨[], [], some .eof⟩ := readSlice_nil _
  have hdrop : (List.replicate (k + 2) 'A').dropLast = List.replicate (k + 1) 'A' := by
    rw [List.replicate_succ' (k + 1)]
    exact List.dropLast_concat
  have hhead : (List.replicate (k + 2) 'A').headI = 'A' := by
    rw [List.replicate_succ]
    rfl
  refine ⟨?_, ?_, ?_⟩
  · simp [fastaSequence, fastaSeqLoop, h1, h2, h3, hdrop, hhead]
  · simp [fastaSequenceBytes, fastaSeqBytesLoop, h1, h2, h3, hdrop, hhead]
  · intro h
    have hlen := congrArg List.length h
    simp at hlen

/-! ### C6: the writer's output format -/

theorem wrapChunks_ne_nil (s : Bytes) : wrapChunks s ≠ [] := by
  rw [wrapChunks]
  split <;> simp

theorem wrapChunks_flatten (s : Bytes) : (wrapChunks s).flatten = s := by
  have H : ∀ n s, List.length s ≤ n → (wrapChunks s).flatten = s := by
    intro n
    induction n with
    | zero =>
      intro s hs
      have h0 : s = [] := List.length_eq_zero.mp (Nat.le_zero.mp hs)
      subst h0
      simp [wrapChunks]
    | succ n ih =>
      intro s hs
      rw [wrapChunks]
      split
      · next h =>
        rw [List.flatten_cons, ih (s.drop 80) (by simp only [List.length_drop]; omega)]
        exact List.take_append_drop 80 s
      · simp
  exact H s.length s le_rfl

theorem wrapSeq_eq_flatten (s : Bytes) :
    wrapSeq s = ((wrapChunks s).map (· ++ ['\n'])).flatten := by
  have H : ∀ n s, List.length s ≤ n →
      wrapSeq s = ((wrapChunks s).map (· ++ ['\n'])).flatten := by
    intro n
    induction n with
    | zero =>
      intro s hs
      have h0 : s = [] := List.length_eq_zero.mp (Nat.le_zero.mp hs)
      subst h0
      simp [wrapSeq, wrapChunks]
    | succ n ih =>
      intro s hs
      rw [wrapSeq, wrapChunks]
      split
      · next h =>
        rw [List.map_cons, List.flatten_cons,
          ih (s.drop 80) (by simp only [List.length_drop]; omega)]
        simp
      · simp
  exact H s.length s le_rfl

theorem wrapChunks_dropLast_all (s : Bytes) :
    ((wrapChunks s).dropLast.all fun c => c.length == 80) = true := by
  have H : ∀ n s, List.length s ≤ n →
      ((wrapChunks s).dropLast.all fun c => c.length == 80) = true := by
    intro n
    induction n with
    | zero =>
      intro s hs
      have h0 : s = [] := List.length_eq_zero.mp (Nat.le_zero.mp hs)
      subst h0
      simp [wrapChunks]
    | succ n ih =>
      intro s hs
      rw [wrapChunks]
      split
      · next h =>
        cases hrest : wrapChunks (s.drop 80) with
        | nil => exact absurd hrest (wrapChunks_ne_nil _)
        | cons r rs =>
          have ihd := ih (s.drop 80) (by simp only [List.length_drop]; omega)
          rw [hrest] at ihd
          simp only [List.dropLast_cons₂, List.all_cons, ihd, Bool.and_true]
          simp [List.length_take, Nat.min_eq_left (Nat.le_of_lt h)]
      · simp
  exact H s.length s le_rfl

theorem wrapChunks_getLast_le (s : Bytes) :
    ((wrapChunks s).getLast?.getD []).length ≤ 80 := by
  have H : ∀ n s, List.length s ≤ n →
      ((wrapChunks s).getLast?.getD []).length ≤ 80 := by
    intro n
    induction n with
    | zero =>
      intro s hs
      have h0 : s = [] := List.length_eq_zero.mp (Nat.le_zero.mp hs)
      subst h0
      simp [wrapChunks]
    | succ n ih =>
      intro s hs
      rw [wrapChunks]
      split
      · next h =>
        cases hrest : wrapChunks (s.drop 80) with
        | nil => exact absurd hrest (wrapChunks_ne_nil _)
        | cons r rs =>
          have ihd := ih (s.drop 80) (by simp only [List.length_drop]; omega)
          rw [hrest] at ihd
          simpa [List.getLast?_cons_cons] using ihd
      · next h => simpa using Nat.le_of_not_lt h
  exact H s.length s le_rfl

/-- C6: each record is written as the marker line `'>' ++ identifier`, then
the sequence wrapped at 80 columns: every line before the last is exactly 80
characters, the final (possibly partial, possibly empty) line is at most 80
characters and is still followed by its own line terminator, and the lines
concatenate back to the sequence.  On the concrete input
`">s1\nACGTACGT\n>s2\nTTTT\n"` with one destination, decoding and writing
reproduces the input exactly. -/
theorem writer_output_format :
    (∀ r : SeqRecord,
      writeRecord r =
        '>' :: r.identifier ++ '\n' :: ((wrapChunks r.sequence).map (· ++ ['\n'])).flatten ∧
      ((wrapChunks r.sequence).dropLast.all fun c => c.length == 80) = true ∧
      ((wrapChunks r.sequence).getLast?.getD []).length ≤ 80 ∧
      (wrapChunks r.sequence).flatten = r.sequence ∧
      wrapSeq [] = ['\n']) ∧
    fastaDecode 4096 ">s1\nACGTACGT\n>s2\nTTTT\n".toList =
      [⟨"s1".toList, "ACGTACGT".toList⟩, ⟨"s2".toList, "TTTT".toList⟩] ∧
    seqWriterOut [⟨"s1".toList, "ACGTACGT".toList⟩, ⟨"s2".toList, "TTTT".toList⟩] =
      ">s1\nACGTACGT\n>s2\nTTTT\n".toList := by
  refine ⟨fun r => ⟨?_, wrapChunks_dropLast_all _, wrapChunks_getLast_le _,
      wrapChunks_flatten _, by simp [wrapSeq]⟩, ?_, ?_⟩
  · rw [writeRecord, wrapSeq_eq_flatten]
  · simp [fastaDecode, fastaRunAux, fastaNext, fastaSequence, fastaSeqLoop,
      readBytesNL, readSlice, readSliceAux, freshFasta, identOf, String.toList]
  · simp [seqWriterOut, writeRecord, wrapSeq, String.toList]

/-! ### C5: the egress sharder's round-robin routing -/

theorem fanLoop_count (n : Nat) (recs : List SeqRecord) :
    ∀ (idx : Nat) (subs : List (List SeqRecord)),
      (fanLoop n recs idx subs).2 = idx + recs.length := by
  induction recs with
  | nil => intro idx subs; simp [fanLoop]
  | cons r rest ih =>
    intro idx subs
    rw [fanLoop, ih]
    simp only [List.length_cons]
    omega

theorem fanLoop_length (n : Nat) (recs : List SeqRecord) :
    ∀ (idx : Nat) (subs : List (List SeqRecord)),
      (fanLoop n recs idx subs).1.length = subs.length := by
  induction recs with
  | nil => intro idx subs; simp [fanLoop]
  | cons r rest ih =>
    intro idx subs
    rw [fanLoop, ih]
    simp

theorem fanLoop_getD (n : Nat) (hn : 0 < n) (recs : List SeqRecord) :
    ∀ (idx d : Nat) (subs : List (List SeqRecord)), subs.length = n →
      (fanLoop n recs idx subs).1.getD d [] =
        subs.getD d [] ++
          ((enumFrom idx recs).filter (fun p => p.1 % n = d)).map Prod.snd := by
  induction recs with
  | nil => intro idx d subs hs; simp [fanLoop, enumFrom]
  | cons r rest ih =>
    intro idx d subs hs
    rw [fanLoop, ih (idx + 1) d _ (by simp [hs]), enumFrom]
    by_cases h : idx % n = d
    · have hd : d < subs.length := by
        rw [hs]
        exact h ▸ Nat.mod_lt idx hn
      rw [List.getD_eq_getElem?_getD, h, List.getElem?_set_self hd]
      simp [h, List.getD_eq_getElem?_getD]
    · rw [List.getD_eq_getElem?_getD, List.getElem?_set_ne (fun hc => h hc)]
      simp [h, List.getD_eq_getElem?_getD]

/-- C5: the sharder with `n + 1` destinations routes the record with global
arrival index `i` (counter starting at zero) to destination `i mod (n+1)`:
destination `d` receives exactly the records whose arrival index is congruent
to `d`, in arrival order, and the total reported when the channel closes is
the number of records received. -/
theorem sharder_round_robin (n : Nat) (recs : List SeqRecord) (d : Nat) :
    (fanWriters (n + 1) recs).2 = recs.length ∧
    (fanWriters (n + 1) recs).1.length = n + 1 ∧
    (fanWriters (n + 1) recs).1.getD d [] =
      ((enumFrom 0 recs).filter (fun p => p.1 % (n + 1) = d)).map Prod.snd := by
  refine ⟨?_, ?_, ?_⟩
  · rw [fanWriters, fanLoop_count]
    omega
  · rw [fanWriters, fanLoop_length, List.length_replicate]
  · rw [fanWriters, fanLoop_getD (n + 1) (Nat.succ_pos n) recs 0 d _
      (List.length_replicate _ _)]
    simp only [List.getD_eq_getElem?_getD, List.getElem?_replicate]
    split <;> simp

/-! ### C8: `Progress()` values -/

theorem wrap64_eq_self {x : Int} (h1 : 0 ≤ x) (h2 : x < 2 ^ 63) :
    wrap64 x = x := by
  rw [wrap64, show ((2 : Int) ^ 63) = 9223372036854775808 by norm_num,
    show ((2 : Int) ^ 64) = 18446744073709551616 by norm_num] at *
  rw [Int.emod_eq_of_lt (by omega) (by omega)]
  omega

/-- As long as the `int64` product `pos*100` does not overflow, a successful
`Stat`/`Seek` pair with `0 ≤ pos ≤ size` makes `Progress()` a value in
`[0, 100]`, and a failed `Stat` or `Seek` makes it exactly `-1` (supporting
theorem for the in-range regime of C8). -/
theorem progress_in_range_no_overflow (stat seek : Option Int)
    (h : ∀ size pos, stat = some size → seek = some pos →
      0 ≤ pos ∧ pos ≤ size ∧ pos * 100 < 2 ^ 63) :
    ((0 ≤ progress stat seek ∧ progress stat seek ≤ 100) ∨
      progress stat seek = -1) ∧
    (stat = none → progress stat seek = -1) ∧
    (seek = none → progress stat seek = -1) := by
  cases stat with
  | none => exact ⟨Or.inr rfl, fun _ => rfl, fun _ => rfl⟩
  | some size =>
    cases seek with
    | none =>
      refine ⟨Or.inr ?_, ?_, ?_⟩
      · simp only [progress]
        split <;> rfl
      · intro hc
        simp at hc
      · intro _
        simp only [progress]
        split <;> rfl
    | some pos =>
      refine ⟨?_, ?_, ?_⟩
      case refine_2 =>
        intro hc
        simp at hc
      case refine_3 =>
        intro hc
        simp at hc
      rcases h size pos rfl rfl with ⟨hp0, hps, hov⟩
      simp only [progress]
      split
      · exact Or.inr rfl
      · next hs =>
        left
        rw [wrap64_eq_self (mul_nonneg hp0 (by norm_num)) hov]
        push_cast
        have hsq : (0 : ℚ) < (size : ℚ) := by
          exact_mod_cast Int.not_le.mp hs
        constructor
        · apply div_nonneg _ (le_of_lt hsq)
          have : (0 : ℚ) ≤ (pos : ℚ) := by exact_mod_cast hp0
          positivity
        · rw [div_le_iff₀ hsq]
          have hle : (pos : ℚ) ≤ (size : ℚ) := by exact_mod_cast hps
          nlinarith

/-- Check of the supporting theorem at a successful `Stat`/`Seek` pair
reporting size 200 and offset 50. -/
theorem progress_in_range_no_overflow_check :
    ((0 ≤ progress (some 200) (some 50) ∧ progress (some 200) (some 50) ≤ 100) ∨
      progress (some 200) (some 50) = -1) ∧
    ((some 200 : Option Int) = none → progress (some 200) (some 50) = -1) ∧
    ((some 50 : Option Int) = none → progress (some 200) (some 50) = -1) :=
  progress_in_range_no_overflow (some 200) (some 50)
    (fun size pos h1 h2 => by
      injection h1 with h1
      injection h2 with h2
      subst h1; subst h2
      exact ⟨by norm_num, by norm_num, by norm_num⟩)

/-- C8: the claim fails on the code for large files.  At a `10^17`-byte file
fully read (`Stat` reports size `10^17`, `Seek` reports offset `10^17`, so
`0 ≤ pos ≤ size` holds), the `int64` product `pos*100 = 10^19` overflows and
wraps to `-8446744073709551616`; `Progress()` returns
`-8446744073709551616 / 10^17 ≈ -84.47`, which is neither in `[0, 100]` nor
the sentinel `-1`.  The method's own doc comment promises "(0.0-100.0) ...
If an error occurs, returns -1.0", so the claim reflects the intent and the
unguarded `int64` multiplication is the slip. -/
theorem progress_wraps_out_of_range :
    ((0 : Int) ≤ 100000000000000000 ∧
      (100000000000000000 : Int) ≤ 100000000000000000) ∧
    progress (some 100000000000000000) (some 100000000000000000) =
      (-8446744073709551616 : ℚ) / 100000000000000000 ∧
    ¬ ((0 ≤ progress (some 100000000000000000) (some 100000000000000000) ∧
        progress (some 100000000000000000) (some 100000000000000000) ≤ 100) ∨
      progress (some 100000000000000000) (some 100000000000000000) = -1) := by
  have hw : wrap64 ((100000000000000000 : Int) * 100) = -8446744073709551616 := by
    rw [wrap64, show ((2 : Int) ^ 63) = 9223372036854775808 by norm_num,
      show ((2 : Int) ^ 64) = 18446744073709551616 by norm_num]
    decide
  have hp : progress (some 100000000000000000) (some 100000000000000000) =
      (-8446744073709551616 : ℚ) / 100000000000000000 := by
    simp only [progress]
    rw [if_neg (by norm_num), hw]
    norm_num
  refine ⟨⟨by norm_num, le_refl _⟩, hp, ?_⟩
  rw [hp]
  rintro (⟨h1, _⟩ | h1)
  · norm_num at h1
  · norm_num at h1

/-! ### C9: querying before the first `Next()` -/

/-- C9 (counterexample): on a freshly opened FASTA reader (input `">a\nCC\n"`,
`Next()` not yet called), `Err()` does report `errNotStarted`, but
`Identifier()` evaluates the slice `identifierBytes[1:len-1]` on the empty
`identifierBytes`, which is out of range — a run-time panic (modelled as
`none`), not a surfaced error value; and `Sequence()` silently reads the
stream (consuming the marker line as its look-ahead) and returns an empty
sequence without surfacing `errNotStarted` either.  This contradicts the
claim that the queries themselves are "surfaced as the NotStartedUse error
(an explicit error value, not undefined behaviour)". -/
theorem query_before_next_counterexample :
    (freshFasta 4096 ">a\nCC\n".toList).lastErr = some .notStarted ∧
    goIdentSlice (freshFasta 4096 ">a\nCC\n".toList).identifierBytes = none ∧
    (fastaSequence (freshFasta 4096 ">a\nCC\n".toList)).1 = [] ∧
    (fastaSequence (freshFasta 4096 ">a\nCC\n".toList)).2.identifierBytes =
      ">a\n".toList := by
  refine ⟨rfl, by decide, ?_, ?_⟩ <;>
    simp [fastaSequence, fastaSeqLoop, freshFasta, readSlice, readSliceAux,
      String.toList]

/-- C9 (amended): before the first `Next()`, the misuse is visible only
through `Err()`, which reports `errNotStarted` until the first successful
advance clears it; `Identifier()` itself is an out-of-range slice (a panic,
modelled `none`), not an error value.  This holds for both reader types. -/
theorem query_before_next_amended (bufSize : Nat) (id rest : Bytes)
    (hid : '\n' ∉ id) :
    (freshFasta bufSize ('>' :: id ++ '\n' :: rest)).lastErr = some .notStarted ∧
    goIdentSlice (freshFasta bufSize ('>' :: id ++ '\n' :: rest)).identifierBytes =
      none ∧
    (fastaNext (freshFasta bufSize ('>' :: id ++ '\n' :: rest))).1 = true ∧
    (fastaNext (freshFasta bufSize ('>' :: id ++ '\n' :: rest))).2.lastErr = none ∧
    (freshFastq bufSize ('@' :: id ++ '\n' :: rest)).lastErr = some .notStarted ∧
    goIdentSlice (freshFastq bufSize ('@' :: id ++ '\n' :: rest)).identifierBytes =
      none ∧
    (fastqNext (freshFastq bufSize ('@' :: id ++ '\n' :: rest))).1 = true ∧
    (fastqNext (freshFastq bufSize ('@' :: id ++ '\n' :: rest))).2.lastErr = none := by
  have ha : readBytesNL ('>' :: id ++ '\n' :: rest) =
      ⟨('>' :: id) ++ ['\n'], rest, none⟩ :=
    readBytesNL_line ('>' :: id) rest (by simp [hid])
  have hq : readBytesNL ('@' :: id ++ '\n' :: rest) =
      ⟨('@' :: id) ++ ['\n'], rest, none⟩ :=
    readBytesNL_line ('@' :: id) rest (by simp [hid])
  simp only [List.cons_append] at ha hq
  refine ⟨rfl, rfl, ?_, ?_, rfl, rfl, ?_, ?_⟩ <;>
    simp [fastaNext, fastqNext, freshFasta, freshFastq, ha, hq]

/-- C9 (witness). -/
theorem query_before_next_amended_witness :
    (freshFasta 4096 ('>' :: "a".toList ++ '\n' :: "CC\n".toList)).lastErr =
      some .notStarted ∧
    goIdentSlice
      (freshFasta 4096 ('>' :: "a".toList ++ '\n' :: "CC\n".toList)).identifierBytes =
      none ∧
    (fastaNext (freshFasta 4096 ('>' :: "a".toList ++ '\n' :: "CC\n".toList))).1 =
      true ∧
    (fastaNext (freshFasta 4096 ('>' :: "a".toList ++ '\n' :: "CC\n".toList))).2.lastErr =
      none ∧
    (freshFastq 4096 ('@' :: "a".toList ++ '\n' :: "CC\n".toList)).lastErr =
      some .notStarted ∧
    goIdentSlice
      (freshFastq 4096 ('@' :: "a".toList ++ '\n' :: "CC\n".toList)).identifierBytes =
      none ∧
    (fastqNext (freshFastq 4096 ('@' :: "a".toList ++ '\n' :: "CC\n".toList))).1 =
      true ∧
    (fastqNext (freshFastq 4096 ('@' :: "a".toList ++ '\n' :: "CC\n".toList))).2.lastErr =
      none :=
  query_before_next_amended 4096 "a".toList "CC\n".toList (by decide)

/-! ### C4: resynchronisation after the quality discard -/

theorem skipHeaderLoop_found (junkLines : List Bytes)
    (hj : ∀ l ∈ junkLines, '\n' ∉ l ∧ (l = [] ∨ l.headI ≠ '@'))
    (id2 t : Bytes) (hid : '\n' ∉ id2) :
    skipHeaderLoop ((junkLines.map (· ++ ['\n'])).flatten ++ ('@' :: (id2 ++ '\n' :: t))) =
      ⟨'@' :: (id2 ++ ['\n']), t, none⟩ := by
  induction junkLines with
  | nil =>
    have hr : readBytesNL ('@' :: id2 ++ '\n' :: t) = ⟨('@' :: id2) ++ ['\n'], t, none⟩ :=
      readBytesNL_line ('@' :: id2) t (by simp [hid])
    simp only [List.cons_append] at hr
    rw [skipHeaderLoop]
    simp [hr]
  | cons l ls ih =>
    have hl := hj l (List.mem_cons_self l ls)
    have hr : readBytesNL (l ++ '\n' ::
        ((ls.map (· ++ ['\n'])).flatten ++ ('@' :: (id2 ++ '\n' :: t)))) =
        ⟨l ++ ['\n'],
          (ls.map (· ++ ['\n'])).flatten ++ ('@' :: (id2 ++ '\n' :: t)), none⟩ :=
      readBytesNL_line l _ hl.1
    have hstream : ((l :: ls).map (· ++ ['\n'])).flatten ++ ('@' :: (id2 ++ '\n' :: t))
        = l ++ '\n' :: ((ls.map (· ++ ['\n'])).flatten ++ ('@' :: (id2 ++ '\n' :: t))) := by
      simp [List.append_assoc]
    have hhead : ¬(l ++ ['\n']).headI = '@' := by
      rcases hl.2 with h | h
      · subst h
        decide
      · cases l with
        | nil => decide
        | cons c cs => simpa using h
    rw [hstream, skipHeaderLoop]
    simp only [hr]
    rw [dif_pos]
    · exact ih (fun x hx => hj x (List.mem_cons_of_mem l hx))
    · exact ⟨by simp, hhead, trivial⟩

theorem skipHeaderLoop_exhausted (junkLines : List Bytes)
    (hj : ∀ l ∈ junkLines, '\n' ∉ l ∧ (l = [] ∨ l.headI ≠ '@')) :
    skipHeaderLoop ((junkLines.map (· ++ ['\n'])).flatten) = ⟨[], [], some .eof⟩ := by
  induction junkLines with
  | nil =>
    rw [skipHeaderLoop]
    simp [readBytesNL]
  | cons l ls ih =>
    have hl := hj l (List.mem_cons_self l ls)
    have hr : readBytesNL (l ++ '\n' :: (ls.map (· ++ ['\n'])).flatten) =
        ⟨l ++ ['\n'], (ls.map (· ++ ['\n'])).flatten, none⟩ :=
      readBytesNL_line l _ hl.1
    have hstream : ((l :: ls).map (· ++ ['\n'])).flatten
        = l ++ '\n' :: (ls.map (· ++ ['\n'])).flatten := by
      simp [List.append_assoc]
    have hhead : ¬(l ++ ['\n']).headI = '@' := by
      rcases hl.2 with h | h
      · subst h
        decide
      · cases l with
        | nil => decide
        | cons c cs => simpa using h
    rw [hstream, skipHeaderLoop]
    simp only [hr]
    rw [dif_pos]
    · exact ih (fun x hx => hj x (List.mem_cons_of_mem l hx))
    · exact ⟨by simp, hhead, trivial⟩

/-- C4: when `lastSeqLen` is positive, `Next()` first discards that many raw
bytes (`pad`), then keeps consuming whole lines that do not begin with `'@'`
(stray or blank lines, `junkLines`) without failing: if a line beginning with
`'@'` follows, it becomes the next identifier line and `Next()` returns
`true` with the stream positioned after it; if the stream ends instead,
`Next()` returns `false`. -/
theorem fastq_resync_skips_stray_lines (bufSize L : Nat) (pad : Bytes)
    (junkLines : List Bytes) (id2 rest ident0 lb0 : Bytes)
    (hL : 0 < L) (hpad : pad.length = L)
    (hj : ∀ l ∈ junkLines, '\n' ∉ l ∧ (l = [] ∨ l.headI ≠ '@'))
    (hid : '\n' ∉ id2) :
    fastqNext ⟨bufSize,
        pad ++ ((junkLines.map (· ++ ['\n'])).flatten ++ ('@' :: (id2 ++ '\n' :: rest))),
        ident0, L, lb0, none⟩ =
      (true, ⟨bufSize, rest, '@' :: (id2 ++ ['\n']), 0, lb0, none⟩) ∧
    (fastqNext ⟨bufSize, pad ++ (junkLines.map (· ++ ['\n'])).flatten,
        ident0, L, lb0, none⟩).1 = false := by
  have hd1 : discardQual L
      (pad ++ ((junkLines.map (· ++ ['\n'])).flatten ++ ('@' :: (id2 ++ '\n' :: rest)))) =
      (0, (junkLines.map (· ++ ['\n'])).flatten ++ ('@' :: (id2 ++ '\n' :: rest)), none) := by
    rw [discardQual, if_neg (by omega), if_neg (by simp [hpad]), ← hpad, List.drop_left]
  have hd2 : discardQual L (pad ++ (junkLines.map (· ++ ['\n'])).flatten) =
      (0, (junkLines.map (· ++ ['\n'])).flatten, none) := by
    rw [discardQual, if_neg (by omega), if_neg (by simp [hpad]), ← hpad, List.drop_left]
  have hskip := skipHeaderLoop_found junkLines hj id2 rest hid
  have hend := skipHeaderLoop_exhausted junkLines hj
  constructor
  · simp [fastqNext, hd1, hskip, hL]
  · simp [fastqNext, hd2, hend, hL]

/-- C4 (witness): after a record of sequence length 4 whose quality block
starts `"!!\n!"`, a blank line and a stray `"x"` line precede the next
header `"@r2"`. -/
theorem fastq_resync_skips_stray_lines_witness :
    fastqNext ⟨4096,
        "!!\n!".toList ++ (([[], ['x']].map (· ++ ['\n'])).flatten ++
          ('@' :: ("r2".toList ++ '\n' :: "GGGG\n".toList))),
        "@r1\n".toList, 4, [], none⟩ =
      (true, ⟨4096, "GGGG\n".toList, '@' :: ("r2".toList ++ ['\n']), 0, [], none⟩) ∧
    (fastqNext ⟨4096, "!!\n!".toList ++ (([[], ['x']].map (· ++ ['\n'])).flatten),
        "@r1\n".toList, 4, [], none⟩).1 = false :=
  fastq_resync_skips_stray_lines 4096 4 "!!\n!".toList [[], ['x']] "r2".toList
    "GGGG\n".toList "@r1\n".toList [] (by decide) (by decide)
    (by
      intro l hl
      simp only [List.mem_cons, List.not_mem_nil, or_false] at hl
      rcases hl with h | h <;> subst h <;> exact ⟨by decide, by simp⟩)
    (by decide)

/-! ### C3: the quality-score skip -/

theorem linesRaw_cons (l : Bytes) (ls : List Bytes) :
    linesRaw (l :: ls) = l ++ '\n' :: linesRaw ls := by
  simp [linesRaw]

theorem linesRaw_length (ls : List Bytes) :
    (linesRaw ls).length = (ls.map List.length).sum + ls.length := by
  induction ls with
  | nil => simp [linesRaw]
  | cons l ls ih =>
    rw [linesRaw_cons]
    simp only [List.length_append, List.length_cons, ih, List.map_cons, List.sum_cons]
    omega

theorem linesRaw_filter (ls : List Bytes) (h : ∀ l ∈ ls, '\n' ∉ l) :
    (linesRaw ls).filter (· != '\n') = ls.flatten := by
  induction ls with
  | nil => simp [linesRaw]
  | cons l ls ih =>
    rw [linesRaw_cons, List.flatten_cons]
    have hl := h l (List.mem_cons_self l ls)
    rw [List.filter_append]
    congr 1
    · rw [List.filter_eq_self]
      intro a ha
      simp only [bne_iff_ne, ne_eq]
      exact fun hc => hl (hc ▸ ha)
    · rw [List.filter_cons]
      simp only [bne_self_eq_false, Bool.false_eq_true, if_neg]
      exact ih (fun x hx => h x (List.mem_cons_of_mem l hx))

theorem drop_linesRaw (ls : List Bytes) (L : Nat)
    (hL : L < (linesRaw ls).length) :
    ∃ p qs, List.drop L (linesRaw ls) = linesRaw (p :: qs) ∧
      (∀ c ∈ p, ∃ q ∈ ls, c ∈ q) ∧ (∀ l ∈ qs, l ∈ ls) := by
  induction ls generalizing L with
  | nil => simp [linesRaw] at hL
  | cons q qs ih =>
    by_cases h : L ≤ q.length
    · refine ⟨q.drop L, qs, ?_, ?_, ?_⟩
      · rw [linesRaw_cons, List.drop_append_of_le_length h, linesRaw_cons]
      · intro c hc
        exact ⟨q, List.mem_cons_self q qs, List.mem_of_mem_drop hc⟩
      · intro l hl
        exact List.mem_cons_of_mem q hl
    · have hsplit : linesRaw (q :: qs) = (q ++ ['\n']) ++ linesRaw qs := by
        rw [linesRaw_cons]
        simp
      have hlen : q.length + 1 ≤ L := by omega
      have hdrop : List.drop L (linesRaw (q :: qs)) =
          List.drop (L - (q.length + 1)) (linesRaw qs) := by
        rw [hsplit]
        generalize hM : L - (q.length + 1) = M
        have hrw : L = (q ++ ['\n']).length + M := by
          simp only [List.length_append, List.length_cons, List.length_nil]
          omega
        rw [hrw, List.drop_append]
      have hL' : L - (q.length + 1) < (linesRaw qs).length := by
        rw [linesRaw_cons] at hL
        simp only [List.length_append, List.length_cons] at hL
        omega
      obtain ⟨p, qs', heq, hmem, hmem2⟩ := ih (L - (q.length + 1)) hL'
      exact ⟨p, qs', by rw [hdrop, heq],
        fun c hc => (hmem c hc).elim fun x hx => ⟨x, List.mem_cons_of_mem q hx.1, hx.2⟩,
        fun l hl => List.mem_cons_of_mem q (hmem2 l hl)⟩

theorem fastqSeqLoop_lines (bufSize : Nat) (hbuf : 2 ≤ bufSize)
    (seqLines : List Bytes)
    (hseq : ∀ l ∈ seqLines, '\n' ∉ l ∧ (l = [] ∨ l.headI ≠ '+') ∧ l.length < bufSize) :
    ∀ (tail ib lb : Bytes) (n0 : Nat) (acc : Bytes),
      fastqSeqLoop ⟨bufSize, linesRaw seqLines ++ ('+' :: '\n' :: tail), ib, n0, lb, none⟩
          acc =
        (acc ++ seqLines.flatten,
          ⟨bufSize, tail, ib, (acc ++ seqLines.flatten).length, ['+', '\n'], none⟩) := by
  induction seqLines with
  | nil =>
    intro tail ib lb n0 acc
    have hr : readSlice bufSize ('+' :: '\n' :: tail) = ⟨['+', '\n'], tail, none⟩ := by
      have h := readSlice_line bufSize ['+'] tail (by decide)
        (by simp only [List.length_cons, List.length_nil]; omega)
      simpa using h
    rw [fastqSeqLoop]
    simp [linesRaw, hr]
  | cons l ls ih =>
    intro tail ib lb n0 acc
    obtain ⟨hl1, hl2, hl3⟩ := hseq l (List.mem_cons_self l ls)
    have hr : readSlice bufSize (l ++ '\n' :: (linesRaw ls ++ ('+' :: '\n' :: tail)))
        = ⟨l ++ ['\n'], linesRaw ls ++ ('+' :: '\n' :: tail), none⟩ :=
      readSlice_line bufSize l _ hl1 hl3
    have hstream : linesRaw (l :: ls) ++ ('+' :: '\n' :: tail)
        = l ++ '\n' :: (linesRaw ls ++ ('+' :: '\n' :: tail)) := by
      rw [linesRaw_cons]
      simp
    have hhead : ¬(l ++ ['\n']).headI = '+' := by
      rcases hl2 with h | h
      · subst h
        decide
      · cases l with
        | nil => decide
        | cons c cs => simpa using h
    rw [hstream, fastqSeqLoop]
    simp only [hr, List.dropLast_concat]
    rw [if_neg (by simp)]
    rw [dif_neg (by simp)]
    rw [if_neg hhead]
    rw [show (if (none : Option GErr) = some GErr.bufferFull then (none : Option GErr)
      else none) = none from rfl]
    rw [ih (fun x hx => hseq x (List.mem_cons_of_mem l hx)) tail ib (l ++ ['\n']) n0
        (acc ++ l)]
    simp

/-- C3 (counterexample): the valid FASTQ input with records
`("r1", "ACGT")` (quality `"@@@@"` wrapped as two lines `"@@"`, `"@@"`) and
`("r2", "GGGG")` (quality `"IIII"`).  After emitting `("r1", "ACGT")` the
decoder discards 4 raw bytes (`"@@\n@"`, only 3 of the 4 quality bytes) and
then mistakes the remaining wrapped quality line `"@\n"` for the next header:
the second decoded record is `("", "@r2GGGG")` instead of `("r2", "GGGG")`.
So for this valid input the number of quality bytes skipped before the
exposed "next header" is 3, not the sequence length 4, refuting the claim
for arbitrary line-wrapping of the quality block. -/
theorem fastq_quality_skip_counterexample :
    fastqDecode 4096 "@r1\nACGT\n+\n@@\n@@\n@r2\nGGGG\n+\nIIII\n".toList =
      [⟨"r1".toList, "ACGT".toList⟩, ⟨[], "@r2GGGG".toList⟩] ∧
    ¬ fastqDecode 4096 "@r1\nACGT\n+\n@@\n@@\n@r2\nGGGG\n+\nIIII\n".toList =
      [⟨"r1".toList, "ACGT".toList⟩, ⟨"r2".toList, "GGGG".toList⟩] := by
  have h : fastqDecode 4096 "@r1\nACGT\n+\n@@\n@@\n@r2\nGGGG\n+\nIIII\n".toList =
      [⟨"r1".toList, "ACGT".toList⟩, ⟨[], "@r2GGGG".toList⟩] := by
    simp [fastqDecode, fastqRunAux, fastqNext, fastqSequence, fastqSeqLoop,
      skipHeaderLoop, discardQual, readBytesNL, readSlice, readSliceAux,
      freshFastq, identOf, String.toList]
  refine ⟨h, ?_⟩
  rw [h]
  decide

/-- C3 (amended): for a valid FASTQ record — identifier `id1`, nonempty
sequence block `seqLines` (any wrapping, lines not starting with the
separator `'+'`), separator, quality block `qualLines` (any wrapping, with
exactly as many quality bytes as sequence bytes) — followed by the next
record's header `id2`, and provided (a) no quality byte is the header marker
`'@'` and (b) every sequence line is shorter than the read-ahead buffer:
`Next()`/`Sequence()` emit the unwrapped sequence, and the following
`Next()` consumes exactly the raw quality block plus the next header line,
leaving the stream at `rest`.  The skipped bytes between the two records are
`linesRaw qualLines`, whose non-terminator (quality) bytes number exactly
the emitted sequence length.  Both provisos are forced: without (a) the
discard can desynchronise on a wrapped quality line starting `'@'`; without
(b) the buffer-boundary byte drop of `Sequence` (C2) makes the emitted
length smaller than the quality length, so the skip exceeds it. -/
theorem fastq_quality_skip_amended (bufSize : Nat) (id1 id2 : Bytes)
    (seqLines qualLines : List Bytes) (rest : Bytes)
    (hbuf : 2 ≤ bufSize)
    (hid1 : '\n' ∉ id1) (hid2 : '\n' ∉ id2)
    (hseq : ∀ l ∈ seqLines, '\n' ∉ l ∧ (l = [] ∨ l.headI ≠ '+') ∧ l.length < bufSize)
    (hflat : seqLines.flatten ≠ [])
    (hqual : ∀ l ∈ qualLines, '\n' ∉ l ∧ '@' ∉ l)
    (hqlen : (qualLines.map List.length).sum = (seqLines.map List.length).sum) :
    fastqNext (freshFastq bufSize
        ('@' :: (id1 ++ '\n' :: (linesRaw seqLines ++ ('+' :: '\n' ::
          (linesRaw qualLines ++ ('@' :: (id2 ++ '\n' :: rest)))))))) =
      (true, ⟨bufSize,
        linesRaw seqLines ++ ('+' :: '\n' ::
          (linesRaw qualLines ++ ('@' :: (id2 ++ '\n' :: rest)))),
        '@' :: (id1 ++ ['\n']), 0, [], none⟩) ∧
    identOf ('@' :: (id1 ++ ['\n'])) = id1 ∧
    fastqSequence ⟨bufSize,
        linesRaw seqLines ++ ('+' :: '\n' ::
          (linesRaw qualLines ++ ('@' :: (id2 ++ '\n' :: rest)))),
        '@' :: (id1 ++ ['\n']), 0, [], none⟩ =
      (seqLines.flatten,
        ⟨bufSize, linesRaw qualLines ++ ('@' :: (id2 ++ '\n' :: rest)),
          '@' :: (id1 ++ ['\n']), seqLines.flatten.length, ['+', '\n'], none⟩) ∧
    fastqNext ⟨bufSize, linesRaw qualLines ++ ('@' :: (id2 ++ '\n' :: rest)),
        '@' :: (id1 ++ ['\n']), seqLines.flatten.length, ['+', '\n'], none⟩ =
      (true, ⟨bufSize, rest, '@' :: (id2 ++ ['\n']), 0, ['+', '\n'], none⟩) ∧
    identOf ('@' :: (id2 ++ ['\n'])) = id2 ∧
    ((linesRaw qualLines).filter (· != '\n')).length = seqLines.flatten.length := by
  have hL : 0 < seqLines.flatten.length := List.length_pos.mpr hflat
  have hLsum : seqLines.flatten.length = (seqLines.map List.length).sum :=
    List.length_flatten seqLines
  have hqne : qualLines ≠ [] := by
    intro hc
    rw [hc] at hqlen
    simp only [List.map_nil, List.sum_nil] at hqlen
    omega
  have hqlraw : (linesRaw qualLines).length =
      seqLines.flatten.length + qualLines.length := by
    rw [linesRaw_length, hqlen, hLsum]
  have hLlt : seqLines.flatten.length < (linesRaw qualLines).length := by
    rw [hqlraw]
    have := List.length_pos.mpr hqne
    omega
  refine ⟨?_, ?_, ?_, ?_, ?_, ?_⟩
  · have hr : readBytesNL (('@' :: id1) ++ '\n' :: (linesRaw seqLines ++ ('+' :: '\n' ::
        (linesRaw qualLines ++ ('@' :: (id2 ++ '\n' :: rest)))))) =
        ⟨('@' :: id1) ++ ['\n'],
          linesRaw seqLines ++ ('+' :: '\n' ::
            (linesRaw qualLines ++ ('@' :: (id2 ++ '\n' :: rest)))), none⟩ :=
      readBytesNL_line ('@' :: id1) _ (by simp [hid1])
    simp only [List.cons_append] at hr
    simp [fastqNext, freshFastq, hr]
  · simp [identOf]
  · rw [fastqSequence, fastqSeqLoop_lines bufSize hbuf seqLines hseq]
    simp
  · have hdis : discardQual seqLines.flatten.length
        (linesRaw qualLines ++ ('@' :: (id2 ++ '\n' :: rest))) =
        (0, List.drop seqLines.flatten.length (linesRaw qualLines) ++
          ('@' :: (id2 ++ '\n' :: rest)), none) := by
      rw [discardQual, if_neg (by omega),
        if_neg (by simp only [List.length_append]; omega),
        List.drop_append_of_le_length (Nat.le_of_lt hLlt)]
    obtain ⟨p, qs, heq, hmemp, hmemq⟩ := drop_linesRaw qualLines _ hLlt
    have hj : ∀ l ∈ p :: qs, '\n' ∉ l ∧ (l = [] ∨ l.headI ≠ '@') := by
      intro l hl
      rcases List.mem_cons.mp hl with h | h
      · subst h
        constructor
        · intro hc
          obtain ⟨q, hq, hcq⟩ := hmemp '\n' hc
          exact (hqual q hq).1 hcq
        · cases l with
          | nil => exact Or.inl rfl
          | cons c cs =>
            refine Or.inr (fun hc => ?_)
            rw [show (c :: cs).headI = c from rfl] at hc
            subst hc
            obtain ⟨q, hq, hcq⟩ := hmemp '@' (List.mem_cons_self _ _)
            exact (hqual q hq).2 hcq
      · have hq := hqual l (hmemq l h)
        refine ⟨hq.1, ?_⟩
        cases l with
        | nil => exact Or.inl rfl
        | cons c cs =>
          refine Or.inr (fun hc => ?_)
          rw [show (c :: cs).headI = c from rfl] at hc
          subst hc
          exact hq.2 (List.mem_cons_self _ _)
    have hskip : skipHeaderLoop (linesRaw (p :: qs) ++ ('@' :: (id2 ++ '\n' :: rest))) =
        ⟨'@' :: (id2 ++ ['\n']), rest, none⟩ :=
      skipHeaderLoop_found (p :: qs) hj id2 rest hid2
    rw [heq] at hdis
    rw [hLsum] at hdis hL
    simp [fastqNext, hdis, hskip, hL]
  · simp [identOf]
  · rw [linesRaw_filter qualLines (fun l hl => (hqual l hl).1)]
    rw [List.length_flatten, hqlen, hLsum]

/-- C3 (witness): record `("r1", "ACGT")` with sequence wrapped as
`"AC"`,`"GT"` and quality `"!!!!"` wrapped differently as `"!"`,`"!!!"`,
followed by the header of `"r2"`. -/
theorem fastq_quality_skip_amended_witness :
    fastqNext (freshFastq 4096
        ('@' :: ("r1".toList ++ '\n' :: (linesRaw [['A', 'C'], ['G', 'T']] ++
          ('+' :: '\n' :: (linesRaw [['!'], ['!', '!', '!']] ++
            ('@' :: ("r2".toList ++ '\n' :: "GGGG\n+\nIIII\n".toList)))))))) =
      (true, ⟨4096,
        linesRaw [['A', 'C'], ['G', 'T']] ++ ('+' :: '\n' ::
          (linesRaw [['!'], ['!', '!', '!']] ++
            ('@' :: ("r2".toList ++ '\n' :: "GGGG\n+\nIIII\n".toList)))),
        '@' :: ("r1".toList ++ ['\n']), 0, [], none⟩) ∧
    identOf ('@' :: ("r1".toList ++ ['\n'])) = "r1".toList ∧
    fastqSequence ⟨4096,
        linesRaw [['A', 'C'], ['G', 'T']] ++ ('+' :: '\n' ::
          (linesRaw [['!'], ['!', '!', '!']] ++
            ('@' :: ("r2".toList ++ '\n' :: "GGGG\n+\nIIII\n".toList)))),
        '@' :: ("r1".toList ++ ['\n']), 0, [], none⟩ =
      ([['A', 'C'], ['G', 'T']].flatten,
        ⟨4096, linesRaw [['!'], ['!', '!', '!']] ++
          ('@' :: ("r2".toList ++ '\n' :: "GGGG\n+\nIIII\n".toList)),
          '@' :: ("r1".toList ++ ['\n']), [['A', 'C'], ['G', 'T']].flatten.length,
          ['+', '\n'], none⟩) ∧
    fastqNext ⟨4096, linesRaw [['!'], ['!', '!', '!']] ++
        ('@' :: ("r2".toList ++ '\n' :: "GGGG\n+\nIIII\n".toList)),
        '@' :: ("r1".toList ++ ['\n']), [['A', 'C'], ['G', 'T']].flatten.length,
        ['+', '\n'], none⟩ =
      (true, ⟨4096, "GGGG\n+\nIIII\n".toList, '@' :: ("r2".toList ++ ['\n']), 0,
        ['+', '\n'], none⟩) ∧
    identOf ('@' :: ("r2".toList ++ ['\n'])) = "r2".toList ∧
    ((linesRaw [['!'], ['!', '!', '!']]).filter (· != '\n')).length =
      [['A', 'C'], ['G', 'T']].flatten.length :=
  fastq_quality_skip_amended 4096 "r1".toList "r2".toList
    [['A', 'C'], ['G', 'T']] [['!'], ['!', '!', '!']] "GGGG\n+\nIIII\n".toList
    (by omega) (by decide) (by decide)
    (by
      intro l hl
      simp only [List.mem_cons, List.not_mem_nil, or_false] at hl
      rcases hl with rfl | rfl <;>
        exact ⟨by decide, Or.inr (by decide), by decide⟩)
    (by decide)
    (by
      intro l hl
      simp only [List.mem_cons, List.not_mem_nil, or_false] at hl
      rcases hl with rfl | rfl <;> exact ⟨by decide, by decide⟩)
    (by decide)

/-! ### C7: the FASTA decode/encode round trip -/

theorem wrapChunks_length_le (s : Bytes) : ∀ l ∈ wrapChunks s, l.length ≤ 80 := by
  have H : ∀ n s, List.length s ≤ n → ∀ l ∈ wrapChunks s, l.length ≤ 80 := by
    intro n
    induction n with
    | zero =>
      intro s hs l hl
      have h0 : s = [] := List.length_eq_zero.mp (Nat.le_zero.mp hs)
      subst h0
      rw [wrapChunks] at hl
      simp at hl
      simp [hl]
    | succ n ih =>
      intro s hs l hl
      rw [wrapChunks] at hl
      split at hl
      · next h =>
        rcases List.mem_cons.mp hl with h1 | h1
        · subst h1
          simp [List.length_take]
        · exact ih (s.drop 80) (by simp only [List.length_drop]; omega) l h1
      · next h =>
        rcases List.mem_cons.mp hl with h1 | h1
        · subst h1
          omega
        · simp at h1
  exact H s.length s le_rfl

theorem wrapChunks_mem_mem {s l : Bytes} {c : Char}
    (hl : l ∈ wrapChunks s) (hc : c ∈ l) : c ∈ s := by
  rw [← wrapChunks_flatten s]
  exact List.mem_flatten.mpr ⟨l, hl, hc⟩

theorem wrapSeq_eq_linesRaw (s : Bytes) : wrapSeq s = linesRaw (wrapChunks s) :=
  wrapSeq_eq_flatten s

theorem writeRecord_eq (r : SeqRecord) :
    writeRecord r = '>' :: (r.identifier ++ '\n' :: linesRaw (wrapChunks r.sequence)) := by
  rw [writeRecord, wrapSeq_eq_linesRaw]
  rfl

theorem seqWriterOut_cons (r : SeqRecord) (recs : List SeqRecord) :
    seqWriterOut (r :: recs) = writeRecord r ++ seqWriterOut recs := by
  simp [seqWriterOut]

theorem seqWriterOut_nil : seqWriterOut [] = [] := by
  simp [seqWriterOut]

theorem fastaNext_header (bufSize : Nat) (stream id lb : Bytes) :
    fastaNext ⟨bufSize, stream, '>' :: (id ++ ['\n']), lb, none⟩ =
      (true, ⟨bufSize, stream, '>' :: (id ++ ['\n']), lb, none⟩) := by
  simp [fastaNext]

theorem fastaSeqLoop_toEnd (bufSize : Nat) (lines : List Bytes)
    (hlines : ∀ l ∈ lines, '\n' ∉ l ∧ (l = [] ∨ l.headI ≠ '>') ∧ l.length < bufSize) :
    ∀ (ib lb acc : Bytes),
      fastaSeqLoop ⟨bufSize, linesRaw lines, ib, lb, none⟩ acc =
        (acc ++ lines.flatten, ⟨bufSize, [], ib, [], some .eof⟩) := by
  induction lines with
  | nil =>
    intro ib lb acc
    rw [fastaSeqLoop]
    simp [linesRaw, readSlice_nil]
  | cons l ls ih =>
    intro ib lb acc
    obtain ⟨hl1, hl2, hl3⟩ := hlines l (List.mem_cons_self l ls)
    have hr : readSlice bufSize (l ++ '\n' :: linesRaw ls) =
        ⟨l ++ ['\n'], linesRaw ls, none⟩ :=
      readSlice_line bufSize l _ hl1 hl3
    have hhead : ¬(l ++ ['\n']).headI = '>' := by
      rcases hl2 with h | h
      · subst h
        decide
      · cases l with
        | nil => decide
        | cons c cs => simpa using h
    rw [linesRaw_cons, fastaSeqLoop]
    simp only [hr, List.dropLast_concat]
    rw [if_neg (by simp)]
    rw [dif_neg (by simp)]
    rw [if_neg hhead]
    rw [show (if (none : Option GErr) = some GErr.bufferFull then (none : Option GErr)
      else none) = none from rfl]
    rw [ih (fun x hx => hlines x (List.mem_cons_of_mem l hx)) ib (l ++ ['\n'])
      (acc ++ l)]
    simp

theorem fastaSeqLoop_toHeader (bufSize : Nat) (lines : List Bytes)
    (hlines : ∀ l ∈ lines, '\n' ∉ l ∧ (l = [] ∨ l.headI ≠ '>') ∧ l.length < bufSize)
    (id2 t : Bytes) (hid2 : '\n' ∉ id2) (hlen : id2.length + 1 < bufSize) :
    ∀ (ib lb acc : Bytes),
      fastaSeqLoop ⟨bufSize, linesRaw lines ++ ('>' :: (id2 ++ '\n' :: t)), ib, lb,
          none⟩ acc =
        (acc ++ lines.flatten,
          ⟨bufSize, t, '>' :: (id2 ++ ['\n']), '>' :: (id2 ++ ['\n']), none⟩) := by
  induction lines with
  | nil =>
    intro ib lb acc
    have hr : readSlice bufSize ('>' :: (id2 ++ '\n' :: t)) =
        ⟨'>' :: (id2 ++ ['\n']), t, none⟩ := by
      have h := readSlice_line bufSize ('>' :: id2) t (by simp [hid2])
        (by simpa using hlen)
      simpa using h
    rw [fastaSeqLoop]
    simp [linesRaw, hr]
  | cons l ls ih =>
    intro ib lb acc
    obtain ⟨hl1, hl2, hl3⟩ := hlines l (List.mem_cons_self l ls)
    have hr : readSlice bufSize (l ++ '\n' :: (linesRaw ls ++ ('>' :: (id2 ++ '\n' :: t))))
        = ⟨l ++ ['\n'], linesRaw ls ++ ('>' :: (id2 ++ '\n' :: t)), none⟩ :=
      readSlice_line bufSize l _ hl1 hl3
    have hstream : linesRaw (l :: ls) ++ ('>' :: (id2 ++ '\n' :: t))
        = l ++ '\n' :: (linesRaw ls ++ ('>' :: (id2 ++ '\n' :: t))) := by
      rw [linesRaw_cons]
      simp
    have hhead : ¬(l ++ ['\n']).headI = '>' := by
      rcases hl2 with h | h
      · subst h
        decide
      · cases l with
        | nil => decide
        | cons c cs => simpa using h
    rw [hstream, fastaSeqLoop]
    simp only [hr, List.dropLast_concat]
    rw [if_neg (by simp)]
    rw [dif_neg (by simp)]
    rw [if_neg hhead]
    rw [show (if (none : Option GErr) = some GErr.bufferFull then (none : Option GErr)
      else none) = none from rfl]
    rw [ih (fun x hx => hlines x (List.mem_cons_of_mem l hx)) ib (l ++ ['\n'])
      (acc ++ l)]
    simp

theorem identOf_marker (c : Char) (id : Bytes) : identOf (c :: (id ++ ['\n'])) = id := by
  simp [identOf]

theorem fastaRunAux_records (bufSize : Nat) (hbuf : 80 < bufSize) :
    ∀ (recs : List SeqRecord) (r0 : SeqRecord) (fuel : Nat) (lb : Bytes),
      (∀ r ∈ r0 :: recs, '\n' ∉ r.identifier ∧ '\n' ∉ r.sequence ∧
        r.identifier.length + 1 < bufSize ∧
        ∀ l ∈ wrapChunks r.sequence, l = [] ∨ l.headI ≠ '>') →
      recs.length + 2 ≤ fuel →
      fastaRunAux fuel ⟨bufSize,
        linesRaw (wrapChunks r0.sequence) ++ seqWriterOut recs,
        '>' :: (r0.identifier ++ ['\n']), lb, none⟩ = r0 :: recs := by
  intro recs
  induction recs with
  | nil =>
    intro r0 fuel lb hrecs hfuel
    obtain ⟨h1, h2, h3, h4⟩ := hrecs r0 (List.mem_cons_self _ _)
    have hlines : ∀ l ∈ wrapChunks r0.sequence,
        '\n' ∉ l ∧ (l = [] ∨ l.headI ≠ '>') ∧ l.length < bufSize := by
      intro l hl
      exact ⟨fun hc => h2 (wrapChunks_mem_mem hl hc), h4 l hl,
        Nat.lt_of_le_of_lt (wrapChunks_length_le _ l hl) hbuf⟩
    obtain ⟨n, rfl⟩ : ∃ n, fuel = n + 2 := ⟨fuel - 2, by omega⟩
    rw [seqWriterOut_nil, List.append_nil]
    rw [show n + 2 = (n + 1) + 1 from rfl]
    rw [fastaRunAux, fastaNext_header]
    simp only [if_true]
    rw [show fastaSequence ⟨bufSize, linesRaw (wrapChunks r0.sequence),
        '>' :: (r0.identifier ++ ['\n']), lb, none⟩ =
      (([] : Bytes) ++ (wrapChunks r0.sequence).flatten,
        ⟨bufSize, [], '>' :: (r0.identifier ++ ['\n']), [], some .eof⟩) from
      fastaSeqLoop_toEnd bufSize _ hlines _ _ []]
    simp only [List.nil_append, wrapChunks_flatten, identOf_marker]
    rw [fastaRunAux]
    simp [fastaNext]
  | cons r1 rest ih =>
    intro r0 fuel lb hrecs hfuel
    obtain ⟨h1, h2, h3, h4⟩ := hrecs r0 (List.mem_cons_self _ _)
    have hlines : ∀ l ∈ wrapChunks r0.sequence,
        '\n' ∉ l ∧ (l = [] ∨ l.headI ≠ '>') ∧ l.length < bufSize := by
      intro l hl
      exact ⟨fun hc => h2 (wrapChunks_mem_mem hl hc), h4 l hl,
        Nat.lt_of_le_of_lt (wrapChunks_length_le _ l hl) hbuf⟩
    obtain ⟨h1', h2', h3', h4'⟩ :=
      hrecs r1 (List.mem_cons_of_mem _ (List.mem_cons_self _ _))
    obtain ⟨n, rfl⟩ : ∃ n, fuel = n + 1 := ⟨fuel - 1, by omega⟩
    rw [seqWriterOut_cons, writeRecord_eq]
    have hassoc : linesRaw (wrapChunks r0.sequence) ++
        (('>' :: (r1.identifier ++ '\n' :: linesRaw (wrapChunks r1.sequence))) ++
          seqWriterOut rest) =
        linesRaw (wrapChunks r0.sequence) ++
          ('>' :: (r1.identifier ++ '\n' ::
            (linesRaw (wrapChunks r1.sequence) ++ seqWriterOut rest))) := by
      simp [List.append_assoc]
    rw [hassoc]
    rw [fastaRunAux, fastaNext_header]
    simp only [if_true]
    rw [show fastaSequence ⟨bufSize,
        linesRaw (wrapChunks r0.sequence) ++
          ('>' :: (r1.identifier ++ '\n' ::
            (linesRaw (wrapChunks r1.sequence) ++ seqWriterOut rest))),
        '>' :: (r0.identifier ++ ['\n']), lb, none⟩ =
      (([] : Bytes) ++ (wrapChunks r0.sequence).flatten,
        ⟨bufSize, linesRaw (wrapChunks r1.sequence) ++ seqWriterOut rest,
          '>' :: (r1.identifier ++ ['\n']), '>' :: (r1.identifier ++ ['\n']), none⟩) from
      fastaSeqLoop_toHeader bufSize _ hlines r1.identifier _ h1' (by omega) _ _ []]
    simp only [List.nil_append, wrapChunks_flatten, identOf_marker]
    rw [ih r1 n ('>' :: (r1.identifier ++ ['\n']))
      (fun r hr => hrecs r (List.mem_cons_of_mem _ hr))
      (by simp only [List.length_cons] at hfuel; omega)]

theorem fastaRunAux_congr_next (fl : Nat) (f f1 : FastaState)
    (hf : fastaNext f = (true, f1)) (hf1 : fastaNext f1 = (true, f1)) :
    fastaRunAux fl f = fastaRunAux fl f1 := by
  cases fl with
  | zero => rfl
  | succ n =>
    rw [fastaRunAux, fastaRunAux, hf, hf1]

theorem fastaRunAux_step (n : Nat) (f f1 f2 : FastaState) (s : Bytes)
    (hf : fastaNext f = (true, f1)) (hseq : fastaSequence f1 = (s, f2)) :
    fastaRunAux (n + 1) f = ⟨identOf f1.identifierBytes, s⟩ :: fastaRunAux n f2 := by
  rw [fastaRunAux, hf]
  simp only [if_true]
  rw [hseq]

theorem fastaRunAux_last (bufSize : Nat) (id : Bytes) (lines : List Bytes)
    (lb : Bytes) (n : Nat)
    (hlines : ∀ l ∈ lines, '\n' ∉ l ∧ (l = [] ∨ l.headI ≠ '>') ∧ l.length < bufSize) :
    fastaRunAux (n + 2) ⟨bufSize, linesRaw lines, '>' :: (id ++ ['\n']), lb, none⟩ =
      [⟨id, lines.flatten⟩] := by
  rw [show n + 2 = (n + 1) + 1 from rfl, fastaRunAux, fastaNext_header]
  simp only [if_true]
  rw [show fastaSequence ⟨bufSize, linesRaw lines, '>' :: (id ++ ['\n']), lb, none⟩ =
    (([] : Bytes) ++ lines.flatten, ⟨bufSize, [], '>' :: (id ++ ['\n']), [], some .eof⟩)
    from fastaSeqLoop_toEnd bufSize lines hlines _ _ []]
  simp only [List.nil_append, identOf_marker]
  rw [fastaRunAux]
  simp [fastaNext]

theorem writeRecord_length_pos (r : SeqRecord) : 0 < (writeRecord r).length := by
  rw [writeRecord]
  simp

theorem seqWriterOut_length (recs : List SeqRecord) :
    recs.length ≤ (seqWriterOut recs).length := by
  induction recs with
  | nil => simp [seqWriterOut]
  | cons r rest ih =>
    rw [seqWriterOut_cons]
    have := writeRecord_length_pos r
    simp only [List.length_cons, List.length_append]
    omega

/-- C7 (amended): decoding the 80-column-wrapped writer output of any record
list whose identifiers and sequences are newline-free, whose identifiers fit
in the read buffer, and whose sequences have no `'>'` at a wrap boundary
(a character position that is a multiple of 80, where re-wrapping puts it at
the start of a line) yields exactly that record list.  Since the first decode
of any FASTA input produces newline-free pairs, decode-encode-decode is
idempotent for all inputs whose decoded records satisfy these conditions. -/
theorem fasta_roundtrip_amended (bufSize : Nat) (recs : List SeqRecord)
    (hbuf : 80 < bufSize)
    (hrecs : ∀ r ∈ recs, '\n' ∉ r.identifier ∧ '\n' ∉ r.sequence ∧
      r.identifier.length + 1 < bufSize ∧
      ∀ l ∈ wrapChunks r.sequence, l = [] ∨ l.headI ≠ '>') :
    fastaDecode bufSize (seqWriterOut recs) = recs := by
  cases recs with
  | nil =>
    rw [seqWriterOut_nil, fastaDecode]
    simp [fastaRunAux, fastaNext, freshFasta, readBytesNL]
  | cons r0 rest =>
    obtain ⟨h1, h2, h3, h4⟩ := hrecs r0 (List.mem_cons_self _ _)
    rw [seqWriterOut_cons, writeRecord_eq]
    have hassoc : ('>' :: (r0.identifier ++ '\n' ::
        linesRaw (wrapChunks r0.sequence))) ++ seqWriterOut rest =
        '>' :: (r0.identifier ++ '\n' ::
          (linesRaw (wrapChunks r0.sequence) ++ seqWriterOut rest)) := by
      simp
    rw [hassoc, fastaDecode]
    have hr : readBytesNL ('>' :: (r0.identifier ++ '\n' ::
        (linesRaw (wrapChunks r0.sequence) ++ seqWriterOut rest))) =
        ⟨'>' :: (r0.identifier ++ ['\n']),
          linesRaw (wrapChunks r0.sequence) ++ seqWriterOut rest, none⟩ := by
      have h := readBytesNL_line ('>' :: r0.identifier)
        (linesRaw (wrapChunks r0.sequence) ++ seqWriterOut rest) (by simp [h1])
      simpa using h
    have hfresh : fastaNext (freshFasta bufSize ('>' :: (r0.identifier ++ '\n' ::
        (linesRaw (wrapChunks r0.sequence) ++ seqWriterOut rest)))) =
        (true, ⟨bufSize, linesRaw (wrapChunks r0.sequence) ++ seqWriterOut rest,
          '>' :: (r0.identifier ++ ['\n']), [], none⟩) := by
      simp [fastaNext, freshFasta, hr]
    rw [fastaRunAux_congr_next _ _ _ hfresh (fastaNext_header _ _ _ _)]
    refine fastaRunAux_records bufSize hbuf rest r0 _ [] hrecs ?_
    have hw := seqWriterOut_length rest
    simp only [List.length_cons, List.length_append]
    omega

theorem fastaRunAux_last_empty (bufSize : Nat) (id lb : Bytes) (n : Nat) :
    fastaRunAux (n + 2) ⟨bufSize, [], '>' :: (id ++ ['\n']), lb, none⟩ =
      [⟨id, []⟩] := by
  have h := fastaRunAux_last bufSize id [] lb n (by simp)
  simpa [linesRaw] using h

theorem fastaNext_fresh (bufSize : Nat) (id body : Bytes) (hid : '\n' ∉ id) :
    fastaNext (freshFasta bufSize ('>' :: (id ++ '\n' :: body))) =
      (true, ⟨bufSize, body, '>' :: (id ++ ['\n']), [], none⟩) := by
  have hr := readBytesNL_line ('>' :: id) body (by simp [hid])
  simp only [List.cons_append] at hr
  simp [fastaNext, freshFasta, hr]

/-- C7 (counterexample): the valid FASTA input `">a\n" ++ "A"*80 ++ ">B\n"`
decodes to the single record `("a", "A"*80 ++ ">B")` — the sequence has the
marker `'>'` at index 80.  Re-encoding wraps at column 80, putting that `'>'`
at the start of a line, and the second decode reads it as a new record
marker: decode∘encode∘decode gives `[("a", "A"*80), ("B", "")]`, not the
original single pair.  So the round trip is not idempotent for every valid
FASTA input. -/
theorem fasta_roundtrip_counterexample :
    fastaDecode 4096 ('>' :: 'a' :: '\n' ::
        ((List.replicate 80 'A' ++ ['>', 'B']) ++ ['\n'])) =
      [⟨['a'], List.replicate 80 'A' ++ ['>', 'B']⟩] ∧
    fastaDecode 4096 (seqWriterOut [⟨['a'], List.replicate 80 'A' ++ ['>', 'B']⟩]) =
      [⟨['a'], List.replicate 80 'A'⟩, ⟨['B'], []⟩] ∧
    ¬ ([⟨['a'], List.replicate 80 'A'⟩, ⟨['B'], []⟩] : List SeqRecord) =
      [⟨['a'], List.replicate 80 'A' ++ ['>', 'B']⟩] := by
  have hnlL : '\n' ∉ List.replicate 80 'A' ++ ['>', 'B'] := by
    simp [List.mem_replicate]
  have hheadL : List.replicate 80 'A' ++ ['>', 'B'] =
      'A' :: (List.replicate 79 'A' ++ ['>', 'B']) := by
    rw [show (80 : Nat) = 79 + 1 from rfl, List.replicate_succ]
    rfl
  have hlinesL : ∀ l ∈ [List.replicate 80 'A' ++ ['>', 'B']],
      '\n' ∉ l ∧ (l = [] ∨ l.headI ≠ '>') ∧ l.length < 4096 := by
    intro l hl
    simp only [List.mem_cons, List.not_mem_nil, or_false] at hl
    subst hl
    refine ⟨hnlL, Or.inr ?_, by simp⟩
    rw [hheadL]
    decide
  refine ⟨?_, ?_, by decide⟩
  · rw [show ('>' :: 'a' :: '\n' ::
        ((List.replicate 80 'A' ++ ['>', 'B']) ++ ['\n'])) =
      '>' :: (['a'] ++ '\n' :: linesRaw [List.replicate 80 'A' ++ ['>', 'B']]) from
      by simp [linesRaw]]
    rw [fastaDecode]
    rw [show ('>' :: (['a'] ++ '\n' ::
        linesRaw [List.replicate 80 'A' ++ ['>', 'B']])).length + 1 = 85 + 2 by
      simp [linesRaw]]
    rw [fastaRunAux_congr_next _ _ _
      (fastaNext_fresh 4096 ['a'] _ (by decide)) (fastaNext_header _ _ _ _)]
    rw [fastaRunAux_last 4096 ['a'] [List.replicate 80 'A' ++ ['>', 'B']] [] 85 hlinesL]
    simp
  · have hchunks : wrapChunks (List.replicate 80 'A' ++ ['>', 'B']) =
        [List.replicate 80 'A', ['>', 'B']] := by
      rw [wrapChunks]
      rw [dif_pos (by simp)]
      rw [List.take_left' (by simp), List.drop_left' (by simp)]
      rw [wrapChunks]
      simp
    have hout : seqWriterOut [⟨['a'], List.replicate 80 'A' ++ ['>', 'B']⟩] =
        '>' :: (['a'] ++ '\n' ::
          (linesRaw [List.replicate 80 'A'] ++
            ('>' :: (['B'] ++ '\n' :: ([] : Bytes))))) := by
      rw [seqWriterOut_cons, seqWriterOut_nil, List.append_nil, writeRecord_eq]
      rw [show (⟨['a'], List.replicate 80 'A' ++ ['>', 'B']⟩ : SeqRecord).sequence =
        List.replicate 80 'A' ++ ['>', 'B'] from rfl, hchunks]
      rw [show (⟨['a'], List.replicate 80 'A' ++ ['>', 'B']⟩ : SeqRecord).identifier =
        ['a'] from rfl]
      rw [show linesRaw [List.replicate 80 'A', ['>', 'B']] =
        linesRaw [List.replicate 80 'A'] ++ ('>' :: (['B'] ++ '\n' :: ([] : Bytes))) from
        by simp [linesRaw]]
    rw [hout, fastaDecode]
    have hlines80 : ∀ l ∈ [List.replicate 80 'A'],
        '\n' ∉ l ∧ (l = [] ∨ l.headI ≠ '>') ∧ l.length < 4096 := by
      intro l hl
      simp only [List.mem_cons, List.not_mem_nil, or_false] at hl
      subst hl
      refine ⟨by simp [List.mem_replicate], Or.inr ?_, by simp⟩
      rw [show (80 : Nat) = 79 + 1 from rfl, List.replicate_succ]
      decide
    have hs : fastaSequence ⟨4096,
        linesRaw [List.replicate 80 'A'] ++ ('>' :: (['B'] ++ '\n' :: ([] : Bytes))),
        '>' :: (['a'] ++ ['\n']), [], none⟩ =
        (([] : Bytes) ++ [List.replicate 80 'A'].flatten,
          ⟨4096, [], '>' :: (['B'] ++ ['\n']), '>' :: (['B'] ++ ['\n']), none⟩) :=
      fastaSeqLoop_toHeader 4096 [List.replicate 80 'A'] hlines80 ['B'] []
        (by decide) (by simp) _ _ []
    rw [show ('>' :: (['a'] ++ '\n' ::
        (linesRaw [List.replicate 80 'A'] ++
          ('>' :: (['B'] ++ '\n' :: ([] : Bytes)))))).length + 1 = 87 + 1 by
      simp [linesRaw]]
    rw [fastaRunAux_congr_next _ _ _
      (fastaNext_fresh 4096 ['a'] _ (by decide)) (fastaNext_header _ _ _ _)]
    rw [fastaRunAux_step 87 _ _ _ _ (fastaNext_header _ _ _ _) hs]
    rw [show (87 : Nat) = 85 + 2 from rfl,
      fastaRunAux_last_empty 4096 ['B'] ('>' :: (['B'] ++ ['\n'])) 85]
    simp [identOf_marker, identOf]

/-- C7 (witness): the two-record list of the spec's scenario survives the
encode-decode round trip. -/
theorem fasta_roundtrip_amended_witness :
    fastaDecode 4096 (seqWriterOut [⟨"s1".toList, "ACGTACGT".toList⟩,
        ⟨"s2".toList, "TTTT".toList⟩]) =
      [⟨"s1".toList, "ACGTACGT".toList⟩, ⟨"s2".toList, "TTTT".toList⟩] :=
  fasta_roundtrip_amended 4096
    [⟨"s1".toList, "ACGTACGT".toList⟩, ⟨"s2".toList, "TTTT".toList⟩]
    (by omega)
    (by
      intro r hr
      have hc1 : wrapChunks "ACGTACGT".toList = ["ACGTACGT".toList] := by
        rw [wrapChunks]
        simp
      have hc2 : wrapChunks "TTTT".toList = ["TTTT".toList] := by
        rw [wrapChunks]
        simp
      simp only [List.mem_cons, List.not_mem_nil, or_false] at hr
      rcases hr with rfl | rfl
      · refine ⟨by decide, by decide, by decide, ?_⟩
        intro l hl
        rw [show (⟨"s1".toList, "ACGTACGT".toList⟩ : SeqRecord).sequence =
          "ACGTACGT".toList from rfl, hc1] at hl
        simp only [List.mem_cons, List.not_mem_nil, or_false] at hl
        subst hl
        exact Or.inr (by decide)
      · refine ⟨by decide, by decide, by decide, ?_⟩
        intro l hl
        rw [show (⟨"s2".toList, "TTTT".toList⟩ : SeqRecord).sequence =
          "TTTT".toList from rfl, hc2] at hl
        simp only [List.mem_cons, List.not_mem_nil, or_false] at hl
        subst hl
        exact Or.inr (by decide))
